import Mathlib

/-!
Shallow embedding of the two cardinality sketches of this repository:
the HyperLogLog register sketch (src/HLL/hll.py) and the Recordinality
bounded sample sketch (src/REC/rec.py), together with proofs about the
claims of the specification.

Conventions of the embedding:
* Python integers are `Nat`/`Int`; hash values fed to the HyperLogLog
  are `Nat` (the hash contract declares an unsigned 32-bit output).
* The numpy register array of dtype int8 is a `List Int`; all register
  values reachable through the API stay far inside the int8 range
  (ranks are at most 29), so no wrap-around is modelled on writes.
* Recordinality hash scores are Python floats compared only by order
  and equality; they are modelled as `ℚ`.
* Fallible Python code (raise) is `Except PyErr`.
-/

/-- Python exceptions raised by the code under consideration. -/
inductive PyErr where
  /-- `ValueError` -/
  | valueError (msg : String) : PyErr
  /-- `TypeError`, e.g. a keyword argument not accepted by a signature -/
  | typeError (msg : String) : PyErr
  /-- `struct.error` from the struct module -/
  | structError (msg : String) : PyErr
deriving DecidableEq

namespace HLL

/-- `_hash_range_bit = 32`: the declared bit width of the hash values. -/
def hash_range_bit : Nat := 32

/-- The state of a `HyperLogLog` object: precision `p`, register count
`m` (set to `2 ^ p` by the constructor) and the register array `reg`
(numpy int8 array, modelled as a list of integers).  The `alpha` float
and the stored hash function play no role in any claim considered here
and are omitted; `max_rank` is recomputed from `p` below exactly as the
constructor computes it. -/
structure Sketch where
  p : Nat
  m : Nat
  reg : List Int
deriving DecidableEq

/-- `self.max_rank = self._hash_range_bit - self.p` from `__init__`. -/
def Sketch.max_rank (s : Sketch) : Nat := hash_range_bit - s.p

/-- `_get_alpha` validates `4 <= p <= 16` and raises `ValueError`
otherwise; the float it returns is irrelevant here, so the model keeps
only the validation. -/
def get_alpha_check (p : Nat) : Except PyErr Unit :=
  if 4 ≤ p ∧ p ≤ 16 then .ok () else
    .error (.valueError "p should be in range 4 to 16")

/-- `__init__(self, p=8, hashfunc=None)`: sets `p`, `m = 1 << p`,
zeroes the registers, then calls `_get_alpha(p)` which validates `p`. -/
def init (p : Nat) : Except PyErr Sketch :=
  match get_alpha_check p with
  | .error e => .error e
  | .ok _ => .ok { p := p, m := 2 ^ p, reg := List.replicate (2 ^ p) 0 }

/-- The parameter names `__init__` declares besides `self`: `p` and
`hashfunc`.  Notably there is no `reg` parameter, although the class
docstring describes one. -/
def init_params : List String := ["p", "hashfunc"]

/-- A Python call `HyperLogLog(**kwargs)`: a keyword argument that is
not among the declared parameters of `__init__` raises `TypeError`
before the body runs; otherwise the body runs (with the default
`p = 8` at the call sites modelled here, which never pass `p`). -/
def call_init_kw (kwargs : List String) : Except PyErr Sketch :=
  match kwargs.find? (fun kw => !(init_params.contains kw)) with
  | some kw => .error (.typeError ("init got an unexpected keyword argument " ++ kw))
  | none => init 8

/-- Recursion kernel for `bit_length`: halve until zero, counting the
steps; the first argument is fuel bounding the recursion depth. -/
def bit_length_go : Nat → Nat → Nat
  | 0, _ => 0
  | fuel + 1, n => if n = 0 then 0 else bit_length_go fuel (n / 2) + 1

/-- `_bit_length`: `int.bit_length` of Python — 0 for 0, and the number
of binary digits (one more than the position of the highest set bit)
otherwise.  `n` itself bounds the number of halvings, so it serves as
fuel. -/
def bit_length (bits : Nat) : Nat := bit_length_go bits bits

/-- `_get_rank(self, bits)`: `rank = self.max_rank - _bit_length(bits) + 1`
(computed in unbounded Python integers, hence in `ℤ`); raises
`ValueError` when `rank <= 0`. -/
def get_rank (mr : Nat) (bits : Nat) : Except PyErr Int :=
  let rank : Int := (mr : Int) - (bit_length bits : Int) + 1
  if rank ≤ 0 then
    .error (.valueError "Hash value overflow, maximum size exceeded")
  else
    .ok rank

/-- The body of `update` once the 32-bit hash value `hv` has been
computed: `reg_index = hv & (m - 1)`, `bits = hv >> p`, then
`reg[reg_index] = max(reg[reg_index], _get_rank(bits))`. -/
def update_hv (s : Sketch) (hv : Nat) : Except PyErr Sketch :=
  match get_rank s.max_rank (hv >>> s.p) with
  | .error e => .error e
  | .ok rank =>
      .ok { s with
        reg := (s.reg.set (hv &&& (s.m - 1)) (max (s.reg.getD (hv &&& (s.m - 1)) 0) rank)) }

/-- A sequence of `update` calls by their hash values (left to right),
stopping at the first raised error. -/
def updates_hv (s : Sketch) : List Nat → Except PyErr Sketch
  | [] => .ok s
  | hv :: rest =>
    match update_hv s hv with
    | .error e => .error e
    | .ok s₁ => updates_hv s₁ rest

/-- A Python value passed to `update`: an `int`, a `str`, or `bytes`. -/
inductive PyVal where
  | int (n : Int) : PyVal
  | str (s : String) : PyVal
  | bytes (b : List Nat) : PyVal

/-- UTF-8 encoding of a string as a byte sequence. -/
def encode_utf8 (s : String) : List Nat := s.toUTF8.toList.map (fun b => b.toNat)

/-- The canonicalization prelude of `update`: integers become
`str(b).encode(utf8)`, strings become `b.encode(utf8)`, bytes pass
through.  Python `str` of an integer agrees with `toString` on `ℤ`. -/
def canonicalize : PyVal → List Nat
  | .int n => encode_utf8 (toString n)
  | .str s => encode_utf8 s
  | .bytes b => b

/-- `update(self, b)` in full: canonicalize `b` to bytes, apply the
stored hash function to those bytes, then run the register update. -/
def update (hashfunc : List Nat → Nat) (s : Sketch) (b : PyVal) : Except PyErr Sketch :=
  update_hv s (hashfunc (canonicalize b))

/-- `merge(self, other)`: raises `ValueError` unless `m` and `p` both
agree, otherwise replaces the registers of `self` by the elementwise
maximum (`np.maximum` of two equal-shaped arrays). -/
def merge (s other : Sketch) : Except PyErr Sketch :=
  if s.m ≠ other.m ∨ s.p ≠ other.p then
    .error (.valueError "Cannot merge HyperLogLog with different precisions")
  else
    .ok { s with reg := List.zipWith max s.reg other.reg }

/-- `digest(self)`: a duplicate of the register array (`copy.copy`). -/
def digest (s : Sketch) : List Int := s.reg

/-- `copy(self)`: calls the class with keyword arguments `reg` and
`hashfunc`; `__init__` accepts neither a `reg` keyword nor any
positional register array. -/
def copy (s : Sketch) : Except PyErr Sketch :=
  let _d := digest s
  call_init_kw ["reg", "hashfunc"]

/-- `np.maximum.reduce` over a list of register arrays: a left fold of
the elementwise maximum. -/
def maximum_reduce : List (List Int) → List Int
  | [] => []
  | r :: rs => rs.foldl (fun acc x => List.zipWith max acc x) r

/-- `union(cls, *hyperloglogs)`: raises `ValueError` for fewer than two
sketches or mismatched `m`; otherwise computes the elementwise-maximum
register array and calls `cls(reg=reg)`. -/
def union (hlls : List Sketch) : Except PyErr Sketch :=
  if hlls.length < 2 then
    .error (.valueError "Cannot union less than 2 HyperLogLog sketches")
  else
    match hlls with
    | [] => .error (.valueError "Cannot union less than 2 HyperLogLog sketches")
    | h₀ :: _ =>
      if hlls.all (fun h => h.m == h₀.m) then
        let _reg := maximum_reduce (hlls.map Sketch.reg)
        call_init_kw ["reg"]
      else
        .error (.valueError "Cannot union HyperLogLog sketches with different precisions")

/-- `bytesize(self)`: one byte for `p` plus one byte per register. -/
def bytesize (s : Sketch) : Nat := 1 + s.m

/-- `struct.pack` with format `B`: accepts integers in `[0, 255]` and
raises `struct.error` otherwise. -/
def packB (v : Int) : Except PyErr Nat :=
  if 0 ≤ v ∧ v ≤ 255 then .ok v.toNat
  else .error (.structError "ubyte format requires 0 to 255")

/-- Packing a register array with format `B` repeated. -/
def packRegs : List Int → Except PyErr (List Nat)
  | [] => .ok []
  | v :: rest => do
    let b ← packB v
    let bs ← packRegs rest
    pure (b :: bs)

/-- `serialize(self, buf)`: raises `ValueError` when the buffer is
shorter than `bytesize()`, otherwise packs `p` then the registers as
unsigned bytes at offset 0, leaving the rest of the buffer unchanged. -/
def serialize (s : Sketch) (buf : List Nat) : Except PyErr (List Nat) :=
  if buf.length < bytesize s then
    .error (.valueError "The buffer does not have enough space for holding this HyperLogLog")
  else do
    let pb ← packB (s.p : Int)
    let rb ← packRegs s.reg
    pure (pb :: rb ++ buf.drop (bytesize s))

/-- Conversion of an unsigned byte to numpy int8 (wraps modulo 256 into
`[-128, 127]`). -/
def toInt8 (b : Nat) : Int :=
  if b % 256 < 128 then ((b % 256 : Nat) : Int) else ((b % 256 : Nat) : Int) - 256

/-- `deserialize(cls, buf)`: unpacks `p` from the first byte (raising
`struct.error` on an empty buffer), builds `cls(p)` (which validates
`p`), then reads `m` unsigned bytes and stores them as an int8 array. -/
def deserialize (buf : List Nat) : Except PyErr Sketch :=
  match buf with
  | [] => .error (.structError "unpack_from requires a buffer of at least 1 bytes")
  | pb :: rest => do
    let h ← init pb
    if rest.length < h.m then
      .error (.structError "unpack_from requires a larger buffer")
    else
      pure { h with reg := (rest.take h.m).map toInt8 }

/-- `__eq__`: same concrete type (always true in this model), same `p`,
same `m`, elementwise-equal registers. -/
def eq (s other : Sketch) : Bool :=
  s.p == other.p && s.m == other.m && s.reg == other.reg

end HLL

namespace REC

/-- An `Element` of the Recordinality sample: the observed value and an
occurrence count starting at 1. -/
structure Element where
  value : String
  count : Nat
deriving DecidableEq

/-- `increment(self)`. -/
def Element.increment (e : Element) : Element := { e with count := e.count + 1 }

/-- The state of a `Recordinality` object: capacity `k`, the
`OrderedDict` from hash score to element (modelled as an
insertion-ordered association list with unique keys), the accepted
modification counter, and `cached_min`, a float initialised to negative
infinity (`none`) and otherwise holding the minimum retained score. -/
structure Sample where
  k : Nat
  k_map : List (ℚ × Element)
  modifications : Nat
  cached_min : Option ℚ
deriving DecidableEq

/-- The fresh state built by `__init__(k, hashfunc)`. -/
def Sample.init (k : Nat) : Sample :=
  { k := k, k_map := [], modifications := 0, cached_min := none }

/-- `hashed_value < self.cached_min` where `cached_min` may be the
float negative infinity: nothing is below negative infinity. -/
def ltMin (hv : ℚ) : Option ℚ → Bool
  | none => false
  | some q => hv < q

/-- `min(self.k_map.keys())` (only ever called on a nonempty map). -/
def minKey (l : List (ℚ × Element)) : ℚ :=
  match l with
  | [] => 0
  | p :: rest => rest.foldl (fun acc q => min acc q.1) p.1

/-- `self.k_map[hashed_value].increment()`: bump the count of the entry
with the given key. -/
def incr (l : List (ℚ × Element)) (hv : ℚ) : List (ℚ × Element) :=
  l.map (fun p => if p.1 == hv then (p.1, p.2.increment) else p)

/-- `del self.k_map[lowest_key]`: remove the entry with the given key
(keys are unique in a dict, so at most one entry is removed). -/
def eraseKey (l : List (ℚ × Element)) (key : ℚ) : List (ℚ × Element) :=
  l.filter (fun p => p.1 != key)

/-- `hashed_value in self.k_map`. -/
def hasKey (l : List (ℚ × Element)) (hv : ℚ) : Bool :=
  l.any (fun p => p.1 == hv)

/-- `_insert_if_fits(self, element)`: returns the Python boolean result
together with the updated object state. -/
def insert_if_fits (hashfunc : String → ℚ) (s : Sample) (element : String) :
    Bool × Sample :=
  let hashed_value := hashfunc element
  if ltMin hashed_value s.cached_min && s.k ≤ s.k_map.length then
    (false, s)
  else if hasKey s.k_map hashed_value then
    (false, { s with k_map := incr s.k_map hashed_value })
  else if s.k_map.length < s.k then
    let m := s.k_map ++ [(hashed_value, ⟨element, 1⟩)]
    (true, { s with k_map := m, cached_min := some (minKey m) })
  else
    let lowest_key := minKey s.k_map
    if lowest_key < hashed_value then
      let m := eraseKey s.k_map lowest_key ++ [(hashed_value, ⟨element, 1⟩)]
      (true, { s with k_map := m, cached_min := some (minKey m) })
    else
      (false, s)

/-- `update(self, element)`: run the insertion and, when it reports an
accepted insertion, count one modification. -/
def update (hashfunc : String → ℚ) (s : Sample) (element : String) : Sample :=
  let r := insert_if_fits hashfunc s element
  if r.1 then { r.2 with modifications := r.2.modifications + 1 } else r.2

/-- `run_rec(self, stream_list)`: update for each stream element. -/
def run_rec (hashfunc : String → ℚ) (s : Sample) (stream : List String) : Sample :=
  stream.foldl (update hashfunc) s

/-- Python `int()` applied to a (here: rational) number truncates
toward zero. -/
def pyInt (q : ℚ) : ℤ := if 0 ≤ q then ⌊q⌋ else -⌊-q⌋

/-- The exact value the estimator computes before the final `int()`
conversion: `k * (1 + 1/k) ** (modifications - k + 1) - 1`, with the
exponent a (possibly negative) integer. -/
def estimateRat (k mods : ℕ) : ℚ :=
  (k : ℚ) * ((1 + 1 / (k : ℚ)) ^ ((mods : ℤ) - (k : ℤ) + 1)) - 1

/-- `estimate_cardinality(self)` as a function of `k` and
`modifications`. -/
def estimate_cardinality (k mods : ℕ) : ℤ := pyInt (estimateRat k mods)

/-- The estimator as the specification words it: the floor of
`k * (1 + 1/k) ^ (modifications - k + 1) - 1`. -/
def estimateFloorSpec (k mods : ℕ) : ℤ := ⌊estimateRat k mods⌋

/-- `estimate_cardinality` of a sample state. -/
def Sample.estimate (s : Sample) : ℤ := estimate_cardinality s.k s.modifications

/-- The retained hash scores, in insertion order. -/
def Sample.keys (s : Sample) : List ℚ := s.k_map.map Prod.fst

end REC

deriving instance DecidableEq for Except

namespace HLL

/-- The fuel argument of `bit_length_go` is irrelevant once it bounds
the input. -/
theorem bit_length_go_eq : ∀ (f₁ f₂ n : Nat), n ≤ f₁ → n ≤ f₂ →
    bit_length_go f₁ n = bit_length_go f₂ n := by
  intro f₁
  induction f₁ with
  | zero =>
    intro f₂ n h1 _
    have hn : n = 0 := Nat.le_zero.mp h1
    subst hn
    cases f₂ <;> simp [bit_length_go]
  | succ g ih =>
    intro f₂ n h1 h2
    cases n with
    | zero => cases f₂ <;> simp [bit_length_go]
    | succ m =>
      cases f₂ with
      | zero => omega
      | succ f =>
        simp only [bit_length_go, if_neg (Nat.succ_ne_zero m)]
        rw [ih f ((m + 1) / 2) (by omega) (by omega)]

/-- Unfolding rule of `bit_length` on a positive input. -/
theorem bit_length_succ (n : Nat) (h : n ≠ 0) :
    bit_length n = bit_length (n / 2) + 1 := by
  cases n with
  | zero => exact absurd rfl h
  | succ m =>
    show bit_length_go (m + 1) (m + 1) = bit_length_go ((m + 1) / 2) ((m + 1) / 2) + 1
    simp only [bit_length_go, if_neg (Nat.succ_ne_zero m)]
    rw [bit_length_go_eq m ((m + 1) / 2) ((m + 1) / 2) (by omega) (by omega)]

/-- Characterization of `bit_length`: it is at most `k` exactly when
the input is below `2 ^ k` (so it agrees with the bit length of
Python). -/
theorem bit_length_le (n k : Nat) : bit_length n ≤ k ↔ n < 2 ^ k := by
  induction n using Nat.strong_induction_on generalizing k with
  | _ n ih =>
    by_cases hn : n = 0
    · subst hn
      simp [bit_length, bit_length_go, Nat.pos_pow_of_pos]
    · rw [bit_length_succ n hn]
      cases k with
      | zero =>
        simp only [pow_zero]
        constructor
        · intro hc; exact absurd hc (Nat.not_succ_le_zero _)
        · intro hc; omega
      | succ k' =>
        have ihh := ih (n / 2) (by omega) k'
        constructor
        · intro hc
          have h2 : n / 2 < 2 ^ k' := ihh.mp (by omega)
          have h3 : n < 2 ^ k' * 2 := by omega
          calc n < 2 ^ k' * 2 := h3
            _ = 2 ^ (k' + 1) := by ring
        · intro hc
          have h4 : 2 ^ (k' + 1) = 2 ^ k' * 2 := by ring
          have h5 : n / 2 < 2 ^ k' := by omega
          have h6 := ihh.mpr h5
          omega

/-- Whether a Python computation returned normally. -/
def succeeds {α : Type} : Except PyErr α → Bool
  | .ok _ => true
  | .error _ => false

/-- Unfolding `get_rank` into the guard on the signed rank value. -/
theorem get_rank_eq (mr bits : Nat) :
    get_rank mr bits =
      if (mr : Int) - (bit_length bits : Int) + 1 ≤ 0 then
        .error (.valueError "Hash value overflow, maximum size exceeded")
      else
        .ok ((mr : Int) - (bit_length bits : Int) + 1) := rfl

/-- A `getD` lookup never exceeds a nonnegative bound satisfied by all
list elements. -/
theorem getD_le_bound (l : List Int) (i : Nat) (B : Int)
    (h0 : 0 ≤ B) (hl : ∀ v ∈ l, v ≤ B) : l.getD i 0 ≤ B := by
  induction l generalizing i with
  | nil => simpa using h0
  | cons x xs ih =>
    cases i with
    | zero => simpa using hl x (List.mem_cons_self x xs)
    | succ i' =>
      simpa using ih i' (fun v hv => hl v (List.mem_cons_of_mem x hv))

/-- Overwriting one position with a larger value only increases `getD`
lookups. -/
theorem getD_le_of_set (l : List Int) (i : Nat) (a : Int)
    (ha : l.getD i 0 ≤ a) (j : Nat) :
    l.getD j 0 ≤ (l.set i a).getD j 0 := by
  induction l generalizing i j with
  | nil => simp [List.set]
  | cons x xs ih =>
    cases i with
    | zero =>
      cases j with
      | zero => simpa using ha
      | succ j' => simp
    | succ i' =>
      cases j with
      | zero => simp
      | succ j' => simpa using ih i' (by simpa using ha) j'

/-- A bound satisfied by every element and by the written value is
satisfied by every element after a `set`. -/
theorem bound_of_set (l : List Int) (i : Nat) (a B : Int)
    (hl : ∀ v ∈ l, v ≤ B) (ha : a ≤ B) : ∀ v ∈ l.set i a, v ≤ B := by
  intro v hv
  rcases List.mem_or_eq_of_mem_set hv with h | h
  · exact hl v h
  · exact h ▸ ha

/-- One successful `update` step: precision and register count are
unchanged, every register lookup is monotone, and any bound at least
`max_rank + 1` satisfied before is satisfied after. -/
theorem update_hv_ok (s s' : Sketch) (hv : Nat)
    (h : update_hv s hv = .ok s') :
    s'.p = s.p ∧ s'.m = s.m ∧
    (∀ j, s.reg.getD j 0 ≤ s'.reg.getD j 0) ∧
    (∀ B : Int, (s.max_rank : Int) + 1 ≤ B →
      (∀ v ∈ s.reg, v ≤ B) → (∀ v ∈ s'.reg, v ≤ B)) := by
  revert h
  unfold update_hv
  rw [get_rank_eq]
  by_cases hr : (s.max_rank : Int) - (bit_length (hv >>> s.p) : Int) + 1 ≤ 0
  · rw [if_pos hr]; intro h; exact absurd h (by simp)
  · rw [if_neg hr]
    intro h
    have hs' : s' = { s with
        reg := s.reg.set (hv &&& (s.m - 1))
          (max (s.reg.getD (hv &&& (s.m - 1)) 0)
            ((s.max_rank : Int) - (bit_length (hv >>> s.p) : Int) + 1)) } := by
      cases h; rfl
    subst hs'
    refine ⟨rfl, rfl, ?_, ?_⟩
    · intro j
      exact getD_le_of_set _ _ _ (le_max_left _ _) j
    · intro B hB hall
      have h0 : (0 : Int) ≤ B := by omega
      refine bound_of_set _ _ _ _ hall (max_le ?_ ?_)
      · exact getD_le_bound _ _ _ h0 hall
      · have : (0 : Int) ≤ (bit_length (hv >>> s.p) : Int) := Int.ofNat_nonneg _
        omega

/-- Claim C3 (amended): across any successful sequence of updates,
register lookups never decrease, and the bound `max_rank + 1` (not
`max_rank`: a zero tail has bit length 0 and rank `max_rank + 1`) is
preserved from the initial state. -/
theorem hll_updates_monotone_bounded (s s' : Sketch) (hvs : List Nat)
    (hhv : ∀ hv ∈ hvs, hv < 2 ^ hash_range_bit)
    (h : updates_hv s hvs = .ok s') :
    (∀ j, s.reg.getD j 0 ≤ s'.reg.getD j 0) ∧
    ((∀ v ∈ s.reg, v ≤ (s.max_rank : Int) + 1) →
      ∀ v ∈ s'.reg, v ≤ (s.max_rank : Int) + 1) := by
  induction hvs generalizing s with
  | nil =>
    cases h
    exact ⟨fun j => le_refl _, fun hb => hb⟩
  | cons hv rest ih =>
    revert h
    unfold updates_hv
    cases hstep : update_hv s hv with
    | error e => intro h; exact absurd h (by simp)
    | ok s₁ =>
      intro h
      obtain ⟨hp, _, hmono, hbound⟩ := update_hv_ok s s₁ hv hstep
      have hmr : s₁.max_rank = s.max_rank := by
        unfold Sketch.max_rank; rw [hp]
      obtain ⟨hmono', hbound'⟩ :=
        ih s₁ (fun x hx => hhv x (List.mem_cons_of_mem hv hx)) h
      constructor
      · intro j; exact le_trans (hmono j) (hmono' j)
      · intro hb
        have h1 : ∀ v ∈ s₁.reg, v ≤ (s.max_rank : Int) + 1 :=
          hbound _ (le_refl _) hb
        have h2 := hbound' (by rw [hmr]; exact h1)
        rw [hmr] at h2
        exact h2

/-- Claim C3 counterexample: on a fresh `p = 4` sketch (so
`max_rank = 28`) the perfectly legal 32-bit hash value 0 drives
register 0 to 29, strictly above `max_rank`. -/
theorem hll_register_bound_counterexample :
    (0 : Nat) < 2 ^ hash_range_bit ∧
    (update_hv ⟨4, 16, List.replicate 16 0⟩ 0).map (fun s => s.reg.getD 0 0) =
      .ok 29 ∧
    ¬ ((29 : Int) ≤ ((Sketch.mk 4 16 (List.replicate 16 0)).max_rank : Int)) :=
  ⟨by decide, by decide, by decide⟩

/-- Witness for the amended Claim C3 theorem at the concrete input of a
fresh `p = 4` sketch updated with hash values 0 then 5. -/
theorem hll_updates_monotone_bounded_witness :
    (List.replicate 16 (0 : Int)).getD 0 0 ≤
      ((((List.replicate 16 (0 : Int)).set 0 29).set 5 29).getD 0 0) :=
  (hll_updates_monotone_bounded ⟨4, 16, List.replicate 16 0⟩
    ⟨4, 16, ((List.replicate 16 0).set 0 29).set 5 29⟩ [0, 5]
    (by decide) (by decide)).1 0

/-- Claim C8: the body of `update` raises exactly when the computed
rank is nonpositive, which happens exactly when the bit length of the
tail `hv >> p` exceeds `max_rank`, i.e. exactly when the hash value
needs more than 32 bits; every hash value below `2 ^ 32` updates
successfully. -/
theorem hll_update_error_iff (s : Sketch) (hv : Nat)
    (hp : s.p ≤ hash_range_bit) :
    (succeeds (update_hv s hv) = false ↔
      s.max_rank < bit_length (hv >>> s.p)) ∧
    (succeeds (update_hv s hv) = false ↔ 2 ^ hash_range_bit ≤ hv) ∧
    (hv < 2 ^ hash_range_bit → succeeds (update_hv s hv) = true) := by
  have hbits : hv >>> s.p = hv / 2 ^ s.p := Nat.shiftRight_eq_div_pow hv s.p
  have hchar : bit_length (hv >>> s.p) ≤ s.max_rank ↔ hv < 2 ^ hash_range_bit := by
    rw [bit_length_le, hbits,
      Nat.div_lt_iff_lt_mul (Nat.pos_pow_of_pos s.p (by norm_num)), ← pow_add]
    unfold Sketch.max_rank
    rw [Nat.sub_add_cancel hp]
  have hfail : succeeds (update_hv s hv) = false ↔
      s.max_rank < bit_length (hv >>> s.p) := by
    unfold update_hv
    rw [get_rank_eq]
    by_cases hr : (s.max_rank : Int) - (bit_length (hv >>> s.p) : Int) + 1 ≤ 0
    · rw [if_pos hr]
      exact ⟨fun _ => by omega, fun _ => rfl⟩
    · rw [if_neg hr]
      constructor
      · intro hc; exact absurd hc (by simp [succeeds])
      · intro hc; omega
  refine ⟨hfail, ?_, ?_⟩
  · rw [hfail]
    constructor
    · intro hc
      by_contra hlt
      exact absurd (hchar.mpr (by omega)) (by omega)
    · intro hc
      by_contra hle
      have := hchar.mp (by omega)
      omega
  · intro hlt
    have hle : bit_length (hv >>> s.p) ≤ s.max_rank := hchar.mpr hlt
    cases hsucc : succeeds (update_hv s hv) with
    | true => rfl
    | false => exact absurd (hfail.mp hsucc) (by omega)

/-- Witness for the Claim C8 theorem: on a fresh `p = 4` sketch, the
32-bit hash value 5 updates successfully and the 33-bit hash value
`2 ^ 32` raises. -/
theorem hll_update_error_iff_witness :
    succeeds (update_hv ⟨4, 16, List.replicate 16 0⟩ 5) = true ∧
    succeeds (update_hv ⟨4, 16, List.replicate 16 0⟩ (2 ^ 32)) = false :=
  ⟨(hll_update_error_iff ⟨4, 16, List.replicate 16 0⟩ 5 (by decide)).2.2 (by decide),
   (hll_update_error_iff ⟨4, 16, List.replicate 16 0⟩ (2 ^ 32) (by decide)).2.1.mpr
     (by decide)⟩

/-- Claim C1: `union` over at least two equal-precision sketches never
returns the elementwise-maximum sketch; after its two documented
`ValueError` guards pass, it calls the class with the keyword argument
`reg`, which `__init__` does not declare, so every successful-path call
raises `TypeError`.  Evidence at the failing input of two fresh `p = 4`
sketches, together with the two guard errors the claim also mentions. -/
theorem hll_union_raises_type_error :
    union [⟨4, 16, List.replicate 16 0⟩, ⟨4, 16, List.replicate 16 0⟩] =
      .error (.typeError "init got an unexpected keyword argument reg") ∧
    union [⟨4, 16, List.replicate 16 0⟩] =
      .error (.valueError "Cannot union less than 2 HyperLogLog sketches") ∧
    union [⟨4, 16, List.replicate 16 0⟩, ⟨5, 32, List.replicate 32 0⟩] =
      .error (.valueError "Cannot union HyperLogLog sketches with different precisions") :=
  ⟨by decide, by decide, by decide⟩

/-- Claim C2: `copy` never returns a duplicate sketch; it calls the
class with the keyword arguments `reg` and `hashfunc`, and `__init__`
declares no `reg` parameter, so the call raises `TypeError` on every
sketch.  Evidence at the failing input of a fresh `p = 4` sketch. -/
theorem hll_copy_raises_type_error :
    copy ⟨4, 16, List.replicate 16 0⟩ =
      .error (.typeError "init got an unexpected keyword argument reg") := by
  decide

/-- Elementwise maximum of two lists is commutative. -/
theorem zipWith_max_comm (l₁ l₂ : List Int) :
    List.zipWith max l₁ l₂ = List.zipWith max l₂ l₁ := by
  induction l₁ generalizing l₂ with
  | nil => cases l₂ <;> simp
  | cons x xs ih =>
    cases l₂ with
    | nil => simp
    | cons y ys => simp [List.zipWith, max_comm x y, ih ys]

/-- Elementwise maximum of lists is associative. -/
theorem zipWith_max_assoc (l₁ l₂ l₃ : List Int) :
    List.zipWith max (List.zipWith max l₁ l₂) l₃ =
      List.zipWith max l₁ (List.zipWith max l₂ l₃) := by
  induction l₁ generalizing l₂ l₃ with
  | nil => simp
  | cons x xs ih =>
    cases l₂ with
    | nil => simp
    | cons y ys =>
      cases l₃ with
      | nil => simp
      | cons z zs => simp [List.zipWith, max_assoc, ih]

/-- Elementwise maximum of a list with itself is the list. -/
theorem zipWith_max_self (l : List Int) : List.zipWith max l l = l := by
  induction l with
  | nil => rfl
  | cons x xs ih => simp [List.zipWith, ih]

/-- A successful `merge` under matching `p` and `m`. -/
theorem merge_eq_ok (s other : Sketch) (hm : s.m = other.m) (hp : s.p = other.p) :
    merge s other = .ok { s with reg := List.zipWith max s.reg other.reg } := by
  unfold merge
  rw [if_neg (by simp [hm, hp])]

/-- Claim C6: on sketches of identical precision (and hence register
count), `merge` is commutative and associative at the level of the
resulting register state, and merging a sketch with itself leaves its
registers unchanged. -/
theorem hll_merge_comm_assoc_idem (A B C : Sketch)
    (hpAB : A.p = B.p) (hpBC : B.p = C.p)
    (hmAB : A.m = B.m) (hmBC : B.m = C.m) :
    ((merge A B).map Sketch.reg = (merge B A).map Sketch.reg) ∧
    (((merge A B).bind (fun s => merge s C)).map Sketch.reg =
      ((merge B C).bind (fun s => merge A s)).map Sketch.reg) ∧
    ((merge A A).map Sketch.reg = .ok A.reg) := by
  have hAB := merge_eq_ok A B hmAB hpAB
  have hBA := merge_eq_ok B A hmAB.symm hpAB.symm
  have hBC := merge_eq_ok B C hmBC hpBC
  have hABC := merge_eq_ok { A with reg := List.zipWith max A.reg B.reg } C
    (hmAB.trans hmBC) (hpAB.trans hpBC)
  have hABC' := merge_eq_ok A { B with reg := List.zipWith max B.reg C.reg }
    hmAB hpAB
  have hAA := merge_eq_ok A A rfl rfl
  refine ⟨?_, ?_, ?_⟩
  · rw [hAB, hBA]
    simp [Except.map, zipWith_max_comm]
  · rw [hAB, hBC]
    simp only [Except.bind]
    rw [hABC, hABC']
    simp [Except.map, zipWith_max_assoc]
  · rw [hAA]
    simp [Except.map, zipWith_max_self]

/-- Witness for the Claim C6 theorem at three concrete `p = 4`
sketches. -/
theorem hll_merge_comm_assoc_idem_witness :
    (merge ⟨4, 16, (List.replicate 16 0).set 0 3⟩ ⟨4, 16, (List.replicate 16 0).set 1 5⟩).map
        Sketch.reg =
      (merge ⟨4, 16, (List.replicate 16 0).set 1 5⟩ ⟨4, 16, (List.replicate 16 0).set 0 3⟩).map
        Sketch.reg :=
  (hll_merge_comm_assoc_idem ⟨4, 16, (List.replicate 16 0).set 0 3⟩
    ⟨4, 16, (List.replicate 16 0).set 1 5⟩ ⟨4, 16, (List.replicate 16 0).set 0 1⟩
    rfl rfl rfl rfl).1

/-- Packing a register list all of whose values fit an unsigned byte. -/
theorem packRegs_ok (l : List Int) (h : ∀ v ∈ l, 0 ≤ v ∧ v ≤ 255) :
    packRegs l = .ok (l.map Int.toNat) := by
  induction l with
  | nil => rfl
  | cons x xs ih =>
    have hx := h x (List.mem_cons_self _ _)
    have hxs := ih (fun v hv => h v (List.mem_cons_of_mem _ hv))
    simp only [packRegs, packB, if_pos hx, hxs, List.map]
    rfl

/-- Unsigned-byte round trip of an int8 register value in `[0, 127]`. -/
theorem toInt8_toNat (v : Int) (h0 : 0 ≤ v) (h127 : v ≤ 127) :
    toInt8 v.toNat = v := by
  unfold toInt8
  have hlt : v.toNat % 256 = v.toNat := Nat.mod_eq_of_lt (by omega)
  rw [hlt, if_pos (by omega)]
  omega

/-- Round trip of a whole register array through unsigned bytes. -/
theorem map_toInt8_toNat (l : List Int) (h : ∀ v ∈ l, 0 ≤ v ∧ v ≤ 127) :
    (l.map Int.toNat).map toInt8 = l := by
  induction l with
  | nil => rfl
  | cons x xs ih =>
    have hx := h x (List.mem_cons_self _ _)
    simp only [List.map, toInt8_toNat x hx.1 hx.2,
      ih (fun v hv => h v (List.mem_cons_of_mem _ hv))]

/-- Claim C7: for a valid sketch (precision in `[4, 16]`, `m = 2 ^ p`
registers each fitting one unsigned byte, which inside the int8 array
means `[0, 127]`) and a buffer of at least `1 + m` bytes,
`deserialize(serialize(S))` reproduces a sketch equal to `S` under
`__eq__` (same `p`, same `m`, identical registers). -/
theorem hll_serialize_roundtrip (s : Sketch) (buf : List Nat)
    (hp4 : 4 ≤ s.p) (hp16 : s.p ≤ 16)
    (hm : s.m = 2 ^ s.p) (hlen : s.reg.length = s.m)
    (hrange : ∀ v ∈ s.reg, 0 ≤ v ∧ v ≤ 255)
    (hint8 : ∀ v ∈ s.reg, -128 ≤ v ∧ v ≤ 127)
    (hbuf : bytesize s ≤ buf.length) :
    serialize s buf = .ok (s.p :: (s.reg.map Int.toNat ++ buf.drop (bytesize s))) ∧
    (deserialize (s.p :: (s.reg.map Int.toNat ++ buf.drop (bytesize s)))).map
      (fun t => eq t s) = .ok true := by
  have hpack : packRegs s.reg = .ok (s.reg.map Int.toNat) := packRegs_ok s.reg hrange
  have hser : serialize s buf =
      .ok (s.p :: (s.reg.map Int.toNat ++ buf.drop (bytesize s))) := by
    unfold serialize
    rw [if_neg (by omega)]
    simp only [packB, if_pos (by omega : 0 ≤ (s.p : Int) ∧ (s.p : Int) ≤ 255), hpack]
    simp only [Int.toNat_ofNat]
    rfl
  refine ⟨hser, ?_⟩
  have hinit : init s.p = .ok { p := s.p, m := 2 ^ s.p, reg := List.replicate (2 ^ s.p) 0 } := by
    unfold init get_alpha_check
    rw [if_pos ⟨hp4, hp16⟩]
  simp only [deserialize, hinit, Bind.bind, Except.bind]
  have hlen2 : (s.reg.map Int.toNat ++ buf.drop (bytesize s)).length =
      s.m + (buf.length - bytesize s) := by
    simp [hlen]
  rw [if_neg (by rw [hlen2, ← hm]; omega)]
  have htake : (s.reg.map Int.toNat ++ buf.drop (bytesize s)).take (2 ^ s.p) =
      s.reg.map Int.toNat :=
    List.take_left' (by rw [List.length_map, hlen, hm])
  rw [htake, map_toInt8_toNat s.reg
    (fun v hv => ⟨(hrange v hv).1, (hint8 v hv).2⟩)]
  simp [Except.map, pure, Except.pure, eq, hm]

/-- Witness for the Claim C7 theorem: a `p = 4` sketch with register 0
set to 3, serialized into a 17-byte zero buffer. -/
theorem hll_serialize_roundtrip_witness :
    (serialize ⟨4, 16, (List.replicate 16 0).set 0 3⟩ (List.replicate 17 0) =
      .ok ((4 : Nat) :: (((List.replicate 16 (0 : Int)).set 0 3).map Int.toNat ++
        (List.replicate 17 0).drop (bytesize ⟨4, 16, (List.replicate 16 0).set 0 3⟩)))) ∧
    ((deserialize ((4 : Nat) :: (((List.replicate 16 (0 : Int)).set 0 3).map Int.toNat ++
        (List.replicate 17 0).drop (bytesize ⟨4, 16, (List.replicate 16 0).set 0 3⟩)))).map
      (fun t => eq t ⟨4, 16, (List.replicate 16 0).set 0 3⟩) = .ok true) :=
  hll_serialize_roundtrip ⟨4, 16, (List.replicate 16 0).set 0 3⟩ (List.replicate 17 0)
    (by decide) (by decide) (by decide) (by decide) (by decide) (by decide) (by decide)

/-- Claim C10: `update` canonicalizes its argument before hashing: an
integer `n`, the string `str(n)` and the bytes `str(n).encode(utf8)`
are canonicalized to the same byte sequence, hence the hash function is
applied to the same bytes and the register update is identical for the
three calls, whatever hash function and sketch state are in play. -/
theorem hll_update_canonicalizes (hashfunc : List Nat → Nat) (s : Sketch) (n : Int) :
    canonicalize (.int n) = canonicalize (.str (toString n)) ∧
    canonicalize (.str (toString n)) = canonicalize (.bytes (encode_utf8 (toString n))) ∧
    update hashfunc s (.int n) = update hashfunc s (.str (toString n)) ∧
    update hashfunc s (.str (toString n)) = update hashfunc s (.bytes (encode_utf8 (toString n))) :=
  ⟨rfl, rfl, rfl, rfl⟩

end HLL

namespace REC

/-- Key combinatorial inequality behind nonnegativity of the
Recordinality estimator: `(k + 1) ^ (k - 1) ≤ k ^ k` for `k ≥ 1`. -/
theorem succ_pow_pred_le (k : Nat) (hk : 1 ≤ k) : (k + 1) ^ (k - 1) ≤ k ^ k := by
  induction k with
  | zero => exact absurd hk (by decide)
  | succ n ih =>
    cases n with
    | zero => decide
    | succ m =>
      have IH : (m + 2) ^ m ≤ (m + 1) ^ (m + 1) := ih (by omega)
      show (m + 3) ^ (m + 1) ≤ (m + 2) ^ (m + 2)
      have h1 : ((m + 3) * (m + 1)) ^ (m + 1) ≤ ((m + 2) * (m + 2)) ^ (m + 1) :=
        Nat.pow_le_pow_left (by nlinarith) _
      have h2 : (m + 3) ^ (m + 1) * (m + 1) ^ (m + 1) ≤
          (m + 2) ^ (m + 1) * (m + 2) ^ (m + 1) := by
        calc (m + 3) ^ (m + 1) * (m + 1) ^ (m + 1)
            = ((m + 3) * (m + 1)) ^ (m + 1) := (mul_pow _ _ _).symm
          _ ≤ ((m + 2) * (m + 2)) ^ (m + 1) := h1
          _ = (m + 2) ^ (m + 1) * (m + 2) ^ (m + 1) := mul_pow _ _ _
      have h3 : (m + 3) ^ (m + 1) * (m + 2) ^ m ≤
          (m + 3) ^ (m + 1) * (m + 1) ^ (m + 1) :=
        Nat.mul_le_mul_left _ IH
      have h4 : (m + 3) ^ (m + 1) * (m + 2) ^ m ≤
          (m + 2) ^ (m + 1) * (m + 2) ^ (m + 1) := le_trans h3 h2
      have h5 : (m + 2) ^ (m + 1) * (m + 2) ^ (m + 1) =
          (m + 2) ^ (m + 2) * (m + 2) ^ m := by
        rw [← pow_add, ← pow_add]
        congr 1
        omega
      rw [h5] at h4
      exact Nat.le_of_mul_le_mul_right (by
        calc (m + 3) ^ (m + 1) * (m + 2) ^ m ≤ (m + 2) ^ (m + 2) * (m + 2) ^ m := h4) 
        (Nat.pos_pow_of_pos m (by omega))

/-- The exact estimator value is nonnegative for every capacity
`k ≥ 1` and every modification count, because the exponent is at least
`1 - k` and `k * (1 + 1/k) ^ (1 - k) = k ^ k / (k + 1) ^ (k - 1) ≥ 1`. -/
theorem estimateRat_nonneg (k mods : ℕ) (hk : 1 ≤ k) : 0 ≤ estimateRat k mods := by
  have hK0 : (0 : ℚ) < (k : ℚ) := by exact_mod_cast Nat.lt_of_lt_of_le Nat.zero_lt_one hk
  have ha : (1 : ℚ) ≤ 1 + 1 / (k : ℚ) := by
    have : (0 : ℚ) ≤ 1 / (k : ℚ) := by positivity
    linarith
  have ha0 : (0 : ℚ) < 1 + 1 / (k : ℚ) := by linarith
  have hexp : (1 : ℤ) - (k : ℤ) ≤ (mods : ℤ) - (k : ℤ) + 1 := by omega
  have hmono : (1 + 1 / (k : ℚ)) ^ ((1 : ℤ) - (k : ℤ)) ≤
      (1 + 1 / (k : ℚ)) ^ ((mods : ℤ) - (k : ℤ) + 1) :=
    zpow_le_zpow_right₀ ha hexp
  have hcastsub : ((k - 1 : ℕ) : ℤ) = (k : ℤ) - 1 := by
    rw [Nat.cast_sub hk]; rfl
  have he : (1 : ℤ) - (k : ℤ) = -((k - 1 : ℕ) : ℤ) := by rw [hcastsub]; ring
  have hpow : (1 + 1 / (k : ℚ)) ^ ((1 : ℤ) - (k : ℤ)) =
      ((1 + 1 / (k : ℚ)) ^ (k - 1 : ℕ))⁻¹ := by
    rw [he, zpow_neg, zpow_natCast]
  have hppos : (0 : ℚ) < (1 + 1 / (k : ℚ)) ^ (k - 1 : ℕ) := pow_pos ha0 _
  have hbase : (1 : ℚ) ≤ (k : ℚ) * (1 + 1 / (k : ℚ)) ^ ((1 : ℤ) - (k : ℤ)) := by
    rw [hpow, ← div_eq_mul_inv, le_div_iff₀ hppos, one_mul]
    have ha_eq : 1 + 1 / (k : ℚ) = ((k : ℚ) + 1) / (k : ℚ) := by
      field_simp
    rw [ha_eq, div_pow, div_le_iff₀ (pow_pos hK0 _)]
    have hnat := succ_pow_pred_le k hk
    have hcast : (((k + 1) ^ (k - 1) : ℕ) : ℚ) ≤ (((k ^ k : ℕ)) : ℚ) := by
      exact_mod_cast hnat
    push_cast at hcast
    have hsplit : ((k : ℚ)) ^ k = (k : ℚ) * ((k : ℚ)) ^ (k - 1 : ℕ) := by
      have hk1 : k - 1 + 1 = k := by omega
      calc ((k : ℚ)) ^ k = ((k : ℚ)) ^ (k - 1 + 1) := by rw [hk1]
        _ = ((k : ℚ)) ^ (k - 1 : ℕ) * (k : ℚ) := pow_succ _ _
        _ = (k : ℚ) * ((k : ℚ)) ^ (k - 1 : ℕ) := mul_comm _ _
    calc ((k : ℚ) + 1) ^ (k - 1 : ℕ) ≤ ((k : ℚ)) ^ k := hcast
      _ = (k : ℚ) * ((k : ℚ)) ^ (k - 1 : ℕ) := hsplit
  have hchain : (1 : ℚ) ≤ (k : ℚ) * (1 + 1 / (k : ℚ)) ^ ((mods : ℤ) - (k : ℤ) + 1) :=
    le_trans hbase (mul_le_mul_of_nonneg_left hmono hK0.le)
  unfold estimateRat
  linarith

/-- Claim C9: for every capacity `k ≥ 1` and every value of the
modification counter, `estimate_cardinality` returns the floor of
`k * (1 + 1/k) ^ (modifications - k + 1) - 1`: the value is always
nonnegative, so the truncation performed by the int conversion of the
code coincides with the floor the specification states. -/
theorem rec_estimate_is_floor (k mods : ℕ) (hk : 1 ≤ k) :
    estimate_cardinality k mods = estimateFloorSpec k mods := by
  unfold estimate_cardinality estimateFloorSpec pyInt
  rw [if_pos (estimateRat_nonneg k mods hk)]

/-- Witness for the Claim C9 theorem at `k = 2`, `modifications = 0`. -/
theorem rec_estimate_is_floor_witness :
    1 ≤ 2 ∧ estimate_cardinality 2 0 = estimateFloorSpec 2 0 :=
  ⟨by decide, rec_estimate_is_floor 2 0 (by decide)⟩

end REC

namespace REC

/-- Concrete hash scores (in lowest terms, as kernel-reducible rational
literals) used in the concrete Recordinality scenarios. -/
def q_tenth : ℚ := ⟨1, 10, by norm_num, by norm_num⟩

/-- The score 0.5. -/
def q_half : ℚ := ⟨1, 2, by norm_num, by norm_num⟩

/-- The score 0.75. -/
def q_three_quarters : ℚ := ⟨3, 4, by norm_num, by norm_num⟩

/-- The score 0.25. -/
def q_quarter : ℚ := ⟨1, 4, by norm_num, by norm_num⟩

/-- The score 0.9. -/
def q_nine_tenths : ℚ := ⟨9, 10, by norm_num, by norm_num⟩

/-- The score 0.95. -/
def q_nineteen_twentieths : ℚ := ⟨19, 20, by norm_num, by norm_num⟩

/-- A left fold of `min` never exceeds its initial accumulator. -/
theorem foldl_min_le_init (rest : List (ℚ × Element)) (a : ℚ) :
    rest.foldl (fun acc p => min acc p.1) a ≤ a := by
  induction rest generalizing a with
  | nil => exact le_refl a
  | cons x xs ih =>
    calc xs.foldl (fun acc p => min acc p.1) (min a x.1) ≤ min a x.1 := ih _
      _ ≤ a := min_le_left _ _

/-- A left fold of `min` never exceeds any key of the folded list. -/
theorem foldl_min_le_mem (rest : List (ℚ × Element)) (a x : ℚ)
    (hx : x ∈ rest.map Prod.fst) :
    rest.foldl (fun acc p => min acc p.1) a ≤ x := by
  induction rest generalizing a with
  | nil => simp at hx
  | cons y ys ih =>
    simp only [List.foldl_cons]
    rcases List.mem_cons.mp hx with h | h
    · calc ys.foldl (fun acc p => min acc p.1) (min a y.1) ≤ min a y.1 :=
        foldl_min_le_init ys _
        _ ≤ y.1 := min_le_right _ _
        _ = x := h.symm
    · exact ih _ h

/-- A left fold of `min` returns its initial accumulator or a key. -/
theorem foldl_min_mem (rest : List (ℚ × Element)) (a : ℚ) :
    rest.foldl (fun acc p => min acc p.1) a = a ∨
      rest.foldl (fun acc p => min acc p.1) a ∈ rest.map Prod.fst := by
  induction rest generalizing a with
  | nil => exact Or.inl rfl
  | cons x xs ih =>
    simp only [List.foldl_cons]
    rcases ih (min a x.1) with h | h
    · rcases le_total a x.1 with hle | hle
      · exact Or.inl (by rw [h, min_eq_left hle])
      · refine Or.inr (List.mem_cons.mpr (Or.inl ?_))
        rw [h, min_eq_right hle]
    · exact Or.inr (List.mem_cons.mpr (Or.inr h))

/-- `min` over the keys of a nonempty map is one of the keys. -/
theorem minKey_mem (l : List (ℚ × Element)) (h : l ≠ []) :
    minKey l ∈ l.map Prod.fst := by
  cases l with
  | nil => exact absurd rfl h
  | cons x xs =>
    show xs.foldl (fun acc q => min acc q.1) x.1 ∈ (x :: xs).map Prod.fst
    rcases foldl_min_mem xs x.1 with h1 | h1
    · rw [h1]; exact List.mem_cons.mpr (Or.inl rfl)
    · exact List.mem_cons.mpr (Or.inr h1)

/-- `min` over the keys bounds every key from below. -/
theorem minKey_le (l : List (ℚ × Element)) (x : ℚ) (hx : x ∈ l.map Prod.fst) :
    minKey l ≤ x := by
  cases l with
  | nil => simp at hx
  | cons y ys =>
    show ys.foldl (fun acc q => min acc q.1) y.1 ≤ x
    rcases List.mem_cons.mp hx with h | h
    · rw [h]
      exact foldl_min_le_init ys y.1
    · exact foldl_min_le_mem ys y.1 x h

/-- Removing a key that occurs exactly once (unique keys) shortens the
map by one entry. -/
theorem length_eraseKey (l : List (ℚ × Element)) (key : ℚ)
    (hnd : (l.map Prod.fst).Nodup) (hmem : key ∈ l.map Prod.fst) :
    (eraseKey l key).length + 1 = l.length := by
  induction l with
  | nil => simp at hmem
  | cons x xs ih =>
    by_cases hx : x.1 = key
    · have hkey_not : key ∉ xs.map Prod.fst := by
        have := (List.nodup_cons.mp hnd).1
        rw [hx] at this
        exact this
      have herase : eraseKey xs key = xs := by
        refine List.filter_eq_self.mpr ?_
        intro p hp
        have : p.1 ≠ key := fun hc =>
          hkey_not (hc ▸ List.mem_map_of_mem Prod.fst hp)
        simpa [bne_iff_ne]
      unfold eraseKey
      rw [List.filter_cons]
      have : (x.1 != key) = false := by simpa [bne_iff_ne]
      rw [this]
      simp only [if_neg (by simp : ¬(false = true))]
      show (eraseKey xs key).length + 1 = xs.length + 1
      rw [herase]
    · have hkey_tail : key ∈ xs.map Prod.fst := by
        rcases List.mem_cons.mp hmem with h | h
        · exact absurd h.symm hx
        · exact h
      unfold eraseKey
      rw [List.filter_cons]
      have : (x.1 != key) = true := by simpa [bne_iff_ne]
      rw [this]
      simp only [if_pos rfl, List.length_cons]
      have := ih (List.nodup_cons.mp hnd).2 hkey_tail
      show (eraseKey xs key).length + 1 + 1 = xs.length + 1
      omega

end REC

namespace REC

/-- Claim C4 (amended): for a Recordinality sample at full capacity
(`k` entries, `k ≥ 1`, cached minimum in sync with the true minimum
key, pairwise-distinct keys — all holding in every reachable state): an
update whose hash score is strictly below the minimum retained key
leaves the state entirely unchanged; one whose score equals the minimum
(necessarily an existing key) increments that entry's occurrence
counter and changes nothing else; and one whose score is strictly above
the minimum and not an existing key evicts the minimum-keyed entry,
admits the new element with count 1, recomputes the cached minimum,
counts one modification, and keeps the sample at exactly `k` entries. -/
theorem rec_update_at_capacity (hashfunc : String → ℚ) (s : Sample) (e : String)
    (hk : 1 ≤ s.k)
    (hlen : s.k_map.length = s.k)
    (hmin : s.cached_min = some (minKey s.k_map))
    (hnd : (s.k_map.map Prod.fst).Nodup) :
    (hashfunc e < minKey s.k_map → update hashfunc s e = s) ∧
    (hashfunc e = minKey s.k_map →
      update hashfunc s e = { s with k_map := incr s.k_map (hashfunc e) }) ∧
    (minKey s.k_map < hashfunc e → hasKey s.k_map (hashfunc e) = false →
      update hashfunc s e = { s with
        k_map := eraseKey s.k_map (minKey s.k_map) ++ [(hashfunc e, ⟨e, 1⟩)],
        modifications := s.modifications + 1,
        cached_min := some (minKey
          (eraseKey s.k_map (minKey s.k_map) ++ [(hashfunc e, ⟨e, 1⟩)])) } ∧
      (update hashfunc s e).k_map.length = s.k) := by
  have hne : s.k_map ≠ [] := by
    intro hc
    rw [hc] at hlen
    simp at hlen
    omega
  refine ⟨?_, ?_, ?_⟩
  · intro hlt
    have hcond : (ltMin (hashfunc e) s.cached_min &&
        decide (s.k ≤ s.k_map.length)) = true := by
      rw [hmin]
      simp [ltMin, hlt, hlen]
    simp [update, insert_if_fits, hcond]
  · intro heq
    have hltf : ltMin (hashfunc e) s.cached_min = false := by
      rw [hmin, heq]
      simp [ltMin]
    have hhas : hasKey s.k_map (hashfunc e) = true := by
      rw [heq]
      unfold hasKey
      rw [List.any_eq_true]
      rcases List.mem_map.mp (minKey_mem s.k_map hne) with ⟨p, hp, hpe⟩
      exact ⟨p, hp, by simp [hpe]⟩
    simp [update, insert_if_fits, hltf, hhas]
  · intro hgt hhas
    have hltf : ltMin (hashfunc e) s.cached_min = false := by
      rw [hmin]
      simp [ltMin, not_lt.mpr (le_of_lt hgt)]
    have hfull : ¬ (s.k_map.length < s.k) := by omega
    have hupd : update hashfunc s e = { s with
        k_map := eraseKey s.k_map (minKey s.k_map) ++ [(hashfunc e, ⟨e, 1⟩)],
        modifications := s.modifications + 1,
        cached_min := some (minKey
          (eraseKey s.k_map (minKey s.k_map) ++ [(hashfunc e, ⟨e, 1⟩)])) } := by
      simp [update, insert_if_fits, hltf, hhas, hfull, hgt]
    refine ⟨hupd, ?_⟩
    rw [hupd]
    have hL := length_eraseKey s.k_map (minKey s.k_map) hnd (minKey_mem s.k_map hne)
    simp only [List.length_append, List.length_cons, List.length_nil]
    omega

/-- Witness for the amended Claim C4 theorem: a full `k = 2` sample
holding scores 0.5 and 0.75; an element hashing to 0.25 (strictly below
the minimum 0.5) is rejected without any mutation. -/
theorem rec_update_at_capacity_witness :
    update (fun x => if x = "c" then q_quarter else q_three_quarters)
        ⟨2, [(q_half, ⟨"a", 1⟩), (q_three_quarters, ⟨"b", 1⟩)], 2, some q_half⟩ "c" =
      ⟨2, [(q_half, ⟨"a", 1⟩), (q_three_quarters, ⟨"b", 1⟩)], 2, some q_half⟩ :=
  (rec_update_at_capacity (fun x => if x = "c" then q_quarter else q_three_quarters)
    ⟨2, [(q_half, ⟨"a", 1⟩), (q_three_quarters, ⟨"b", 1⟩)], 2, some q_half⟩ "c"
    (by decide) (by decide) (by decide) (by decide)).1 (by decide)

/-- Claim C4 counterexample: in a reachable `k = 1` sample at capacity
holding the single score 0.5 with count 1, a further update whose hash
score equals the current minimum (hence is not strictly greater, i.e.
is `≤` it) increments that entry's occurrence counter: the state is
mutated, contradicting the claimed rejection without mutation. -/
theorem rec_update_at_capacity_counterexample :
    ((update (fun _ => q_half) (Sample.init 1) "a").k_map.length = 1 ∧
      (fun _ => q_half) "a" ≤ minKey (update (fun _ => q_half) (Sample.init 1) "a").k_map) ∧
    (update (fun _ => q_half) (Sample.init 1) "a").k_map = [(q_half, ⟨"a", 1⟩)] ∧
    (update (fun _ => q_half) (update (fun _ => q_half) (Sample.init 1) "a") "a").k_map =
      [(q_half, ⟨"a", 2⟩)] ∧
    update (fun _ => q_half) (update (fun _ => q_half) (Sample.init 1) "a") "a" ≠
      update (fun _ => q_half) (Sample.init 1) "a" :=
  ⟨⟨by decide, by decide⟩, by decide, by decide, by decide⟩

end REC

namespace REC

/-- The hash scores of the concrete specification scenario: four
distinct elements scoring 0.1, 0.9, 0.5 and 0.95 respectively. -/
def scenario_hash : String → ℚ := fun e =>
  if e = "a" then q_tenth
  else if e = "b" then q_nine_tenths
  else if e = "c" then q_half
  else q_nineteen_twentieths

/-- Claim C5 counterexample: feeding the scenario stream to a `k = 2`
sample yields a modifications counter of 4, not 3 as the claim states
(two fills, then 0.5 evicts 0.1, then 0.95 evicts 0.5: four accepted
insertions in total). -/
theorem rec_scenario_counterexample :
    (run_rec scenario_hash (Sample.init 2) ["a", "b", "c", "d"]).modifications = 4 ∧
    ¬ ((run_rec scenario_hash (Sample.init 2) ["a", "b", "c", "d"]).modifications = 3) :=
  ⟨by decide, by decide⟩

/-- Claim C5 (amended): after feeding hash scores 0.1, 0.9, 0.5, 0.95
in order to a `k = 2` sample, the final sample holds exactly the keys
0.9 and 0.95, the modifications counter equals 4, the estimator
exponent `modifications - k + 1` is 3, and `estimate_cardinality`
returns `floor(2 * (3/2) ^ 3 - 1) = 5`. -/
theorem rec_scenario_amended :
    (run_rec scenario_hash (Sample.init 2) ["a", "b", "c", "d"]).keys =
      [(9 : ℚ)/10, (19 : ℚ)/20] ∧
    (run_rec scenario_hash (Sample.init 2) ["a", "b", "c", "d"]).modifications = 4 ∧
    ((run_rec scenario_hash (Sample.init 2) ["a", "b", "c", "d"]).modifications : ℤ) -
      ((run_rec scenario_hash (Sample.init 2) ["a", "b", "c", "d"]).k : ℤ) + 1 = 3 ∧
    (run_rec scenario_hash (Sample.init 2) ["a", "b", "c", "d"]).estimate =
      ⌊(2 : ℚ) * ((3 : ℚ)/2) ^ (3 : ℤ) - 1⌋ := by
  have h9 : q_nine_tenths = (9 : ℚ)/10 := by
    rw [q_nine_tenths, Rat.mk'_eq_divInt, Rat.divInt_eq_div]
    norm_num
  have h19 : q_nineteen_twentieths = (19 : ℚ)/20 := by
    rw [q_nineteen_twentieths, Rat.mk'_eq_divInt, Rat.divInt_eq_div]
    norm_num
  have hkeys : (run_rec scenario_hash (Sample.init 2) ["a", "b", "c", "d"]).keys =
      [q_nine_tenths, q_nineteen_twentieths] := by decide
  have hmods : (run_rec scenario_hash (Sample.init 2) ["a", "b", "c", "d"]).modifications = 4 :=
    by decide
  have hcap : (run_rec scenario_hash (Sample.init 2) ["a", "b", "c", "d"]).k = 2 := by decide
  refine ⟨by rw [hkeys, h9, h19], hmods, by rw [hmods, hcap]; norm_num, ?_⟩
  show estimate_cardinality
      (run_rec scenario_hash (Sample.init 2) ["a", "b", "c", "d"]).k
      (run_rec scenario_hash (Sample.init 2) ["a", "b", "c", "d"]).modifications = _
  rw [hmods, hcap]
  have hval : estimateRat 2 4 = 23/4 := by
    norm_num [estimateRat]
  have hrhs : (2 : ℚ) * ((3 : ℚ)/2) ^ (3 : ℤ) - 1 = 23/4 := by
    norm_num
  rw [hrhs]
  unfold estimate_cardinality pyInt
  rw [hval, if_pos (by norm_num)]

end REC
